import Mathlib

/-!
Verification of the WASM test-harness runtime (`test-wasm/conftest.py`):
bump allocator, linear-memory accessor, string-ABI marshaller, host import
functions and export-call facade, shallowly embedded in Lean.

Host strings are modelled by their UTF-8 byte sequences (`List Nat`), guest
linear memory by a size plus a byte-valued function, and Python exceptions by
`Option`/flag results.
-/

namespace WasmHarness

/-- Guest linear memory: current size in bytes plus the byte at each address. -/
structure Mem where
  size : Nat
  data : Nat → Nat

/-- Python slice-index normalisation for a buffer of `size` bytes: negative
indices count from the end, and the result is clamped into `[0, size]`. -/
def sliceIdx (size : Nat) (i : Int) : Nat :=
  if i < 0 then (i + size).toNat else min i.toNat size

/-- `WasmInstance.read_bytes`: `bytes(buf[ptr : ptr + length])` over the whole
linear memory, with Python slice semantics (clamping, never raising). -/
def readBytes (m : Mem) (ptr length : Int) : List Nat :=
  let a := sliceIdx m.size ptr
  let b := sliceIdx m.size (ptr + length)
  (List.range (b - a)).map fun i => m.data (a + i)

/-- Store one byte at address `p` (ctypes element assignment). -/
def setByte (m : Mem) (p : Nat) (b : Nat) : Mem :=
  ⟨m.size, fun i => if i = p then b else m.data i⟩

/-- `WasmInstance.write_bytes`: `for i, b in enumerate(data): buf[ptr+i] = b`.
The ctypes array raises `IndexError` at the first out-of-range index; bytes
already written stay written.  The returned flag is `false` when the loop
raised. -/
def write_bytes (m : Mem) (ptr : Nat) : List Nat → Mem × Bool
  | [] => (m, true)
  | b :: rest =>
    if ptr < m.size then write_bytes (setByte m ptr b) (ptr + 1) rest
    else (m, false)

/-- Little-endian decoding of a byte list (`struct.unpack` accumulation). -/
def leDecode : List Nat → Nat
  | [] => 0
  | b :: bs => b + 256 * leDecode bs

/-- The `n` little-endian bytes of `v` (`struct.pack` on an in-range value). -/
def leBytes : Nat → Nat → List Nat
  | 0, _ => []
  | n + 1, v => v % 256 :: leBytes n (v / 256)

/-- `WasmInstance.read_u64_le`: read 8 bytes and unpack `<Q`; `struct.unpack`
raises (`none`) unless exactly 8 bytes were obtained. -/
def read_u64_le (m : Mem) (p : Nat) : Option Nat :=
  let raw := readBytes m p 8
  if raw.length = 8 then some (leDecode raw) else none

/-- Two's-complement reinterpretation of a 64-bit unsigned value (`<q`). -/
def toSigned64 (v : Nat) : Int :=
  if v < 2 ^ 63 then (v : Int) else (v : Int) - 2 ^ 64

/-- `WasmInstance.read_i64_le`: read 8 bytes and unpack `<q`. -/
def read_i64_le (m : Mem) (p : Nat) : Option Int :=
  (read_u64_le m p).map toSigned64

/-- `WasmInstance.write_i64_le`: `struct.pack("<q", value)` then `write_bytes`.
All harness call sites pass nonnegative values; `pack` range-checks the value
(raises unless it fits a signed 64-bit integer) and `write_bytes` raises when
out of memory bounds — both failures are `none`. -/
def write_i64_le (m : Mem) (p : Nat) (value : Nat) : Option Mem :=
  if value < 2 ^ 63 then
    match write_bytes m p (leBytes 8 value) with
    | (m', true) => some m'
    | (_, false) => none
  else none

/-- `BumpAllocator`: a single cursor into guest linear memory (`self._ptr`). -/
structure BumpAllocator where
  ptr : Nat

/-- `BumpAllocator.aligned_alloc`: round the cursor up to `align`, return it,
then advance by `size`.  Callers pass `align ≥ 1` (Python `% 0` would raise). -/
def aligned_alloc (a : BumpAllocator) (align size : Nat) : Nat × BumpAllocator :=
  let remainder := a.ptr % align
  let p := if remainder ≠ 0 then a.ptr + (align - remainder) else a.ptr
  (p, ⟨p + size⟩)

/-- `BumpAllocator.aligned_free`: no-op returning success. -/
def aligned_free (_a : BumpAllocator) (_p : Nat) : Nat := 1

/-- Run a sequence of `aligned_alloc (align, size)` calls, collecting the
returned pointer together with the requested size for each call. -/
def runAllocs : BumpAllocator → List (Nat × Nat) → List (Nat × Nat)
  | _, [] => []
  | a, (al, sz) :: rest =>
    let r := aligned_alloc a al sz
    (r.1, sz) :: runAllocs r.2 rest

/-- `SSO_FLAG`: top bit of the 8-byte capacity field. -/
def SSO_FLAG : Nat := 0x8000000000000000

/-- `SSO_LEN_MASK`: bits 56–60 of the capacity field (inline length). -/
def SSO_LEN_MASK : Nat := 0x1F00000000000000

/-- Length in bytes of the valid UTF-8 sequence starting the list, or `none`
when the head byte does not start a valid, minimal, scalar-value sequence
(the acceptance ranges of a strict UTF-8 decoder). -/
def seqLen : List Nat → Option Nat
  | [] => none
  | b0 :: rest =>
    if b0 ≤ 0x7F then some 1
    else if 0xC2 ≤ b0 ∧ b0 ≤ 0xDF then
      match rest with
      | b1 :: _ => if 0x80 ≤ b1 ∧ b1 ≤ 0xBF then some 2 else none
      | _ => none
    else if b0 = 0xE0 then
      match rest with
      | b1 :: b2 :: _ =>
        if (0xA0 ≤ b1 ∧ b1 ≤ 0xBF) ∧ (0x80 ≤ b2 ∧ b2 ≤ 0xBF) then some 3 else none
      | _ => none
    else if (0xE1 ≤ b0 ∧ b0 ≤ 0xEC) ∨ b0 = 0xEE ∨ b0 = 0xEF then
      match rest with
      | b1 :: b2 :: _ =>
        if (0x80 ≤ b1 ∧ b1 ≤ 0xBF) ∧ (0x80 ≤ b2 ∧ b2 ≤ 0xBF) then some 3 else none
      | _ => none
    else if b0 = 0xED then
      match rest with
      | b1 :: b2 :: _ =>
        if (0x80 ≤ b1 ∧ b1 ≤ 0x9F) ∧ (0x80 ≤ b2 ∧ b2 ≤ 0xBF) then some 3 else none
      | _ => none
    else if b0 = 0xF0 then
      match rest with
      | b1 :: b2 :: b3 :: _ =>
        if (0x90 ≤ b1 ∧ b1 ≤ 0xBF) ∧ (0x80 ≤ b2 ∧ b2 ≤ 0xBF) ∧ (0x80 ≤ b3 ∧ b3 ≤ 0xBF)
        then some 4 else none
      | _ => none
    else if 0xF1 ≤ b0 ∧ b0 ≤ 0xF3 then
      match rest with
      | b1 :: b2 :: b3 :: _ =>
        if (0x80 ≤ b1 ∧ b1 ≤ 0xBF) ∧ (0x80 ≤ b2 ∧ b2 ≤ 0xBF) ∧ (0x80 ≤ b3 ∧ b3 ≤ 0xBF)
        then some 4 else none
      | _ => none
    else if b0 = 0xF4 then
      match rest with
      | b1 :: b2 :: b3 :: _ =>
        if (0x80 ≤ b1 ∧ b1 ≤ 0x8F) ∧ (0x80 ≤ b2 ∧ b2 ≤ 0xBF) ∧ (0x80 ≤ b3 ∧ b3 ≤ 0xBF)
        then some 4 else none
      | _ => none
    else none

/-- Fuel-indexed worker for `validUtf8`; the fuel is an upper bound on the
number of sequences (each sequence consumes at least one byte). -/
def validUtf8Go : Nat → List Nat → Bool
  | 0, l => l.isEmpty
  | fuel + 1, l =>
    match l with
    | [] => true
    | _ :: _ =>
      match seqLen l with
      | some k => validUtf8Go fuel (l.drop k)
      | none => false

/-- Whether a byte list is valid UTF-8 (what Python's strict `bytes.decode`
accepts). -/
def validUtf8 (l : List Nat) : Bool := validUtf8Go l.length l

/-- Number of bytes CPython's replacement error handler consumes for one
invalid sequence: the maximal valid subpart starting at the head, at least 1. -/
def partLen : List Nat → Nat
  | [] => 1
  | b0 :: rest =>
    if b0 = 0xE0 then
      match rest with
      | b1 :: _ => if 0xA0 ≤ b1 ∧ b1 ≤ 0xBF then 2 else 1
      | _ => 1
    else if (0xE1 ≤ b0 ∧ b0 ≤ 0xEC) ∨ b0 = 0xEE ∨ b0 = 0xEF then
      match rest with
      | b1 :: _ => if 0x80 ≤ b1 ∧ b1 ≤ 0xBF then 2 else 1
      | _ => 1
    else if b0 = 0xED then
      match rest with
      | b1 :: _ => if 0x80 ≤ b1 ∧ b1 ≤ 0x9F then 2 else 1
      | _ => 1
    else if b0 = 0xF0 then
      match rest with
      | b1 :: b2 :: _ =>
        if 0x90 ≤ b1 ∧ b1 ≤ 0xBF then (if 0x80 ≤ b2 ∧ b2 ≤ 0xBF then 3 else 2) else 1
      | [b1] => if 0x90 ≤ b1 ∧ b1 ≤ 0xBF then 2 else 1
      | _ => 1
    else if 0xF1 ≤ b0 ∧ b0 ≤ 0xF3 then
      match rest with
      | b1 :: b2 :: _ =>
        if 0x80 ≤ b1 ∧ b1 ≤ 0xBF then (if 0x80 ≤ b2 ∧ b2 ≤ 0xBF then 3 else 2) else 1
      | [b1] => if 0x80 ≤ b1 ∧ b1 ≤ 0xBF then 2 else 1
      | _ => 1
    else if b0 = 0xF4 then
      match rest with
      | b1 :: b2 :: _ =>
        if 0x80 ≤ b1 ∧ b1 ≤ 0x8F then (if 0x80 ≤ b2 ∧ b2 ≤ 0xBF then 3 else 2) else 1
      | [b1] => if 0x80 ≤ b1 ∧ b1 ≤ 0x8F then 2 else 1
      | _ => 1
    else 1

/-- Fuel-indexed worker for `decodeReplace`. -/
def decodeReplaceGo : Nat → List Nat → List Nat
  | 0, _ => []
  | fuel + 1, l =>
    match l with
    | [] => []
    | _ :: _ =>
      match seqLen l with
      | some k => l.take k ++ decodeReplaceGo fuel (l.drop k)
      | none => 0xEF :: 0xBF :: 0xBD :: decodeReplaceGo fuel (l.drop (partLen l))

/-- `bytes.decode("utf-8", errors="replace")`: copy valid sequences, replace
each maximal invalid subpart with U+FFFD (UTF-8 `EF BF BD`); never raises. -/
def decodeReplace (l : List Nat) : List Nat := decodeReplaceGo l.length l

/-- `WasmInstance.write_string_struct`: allocate `n+1` bytes (align 1) for the
UTF-8 data plus a NUL, then a 24-byte struct (align 8), and store the
little-endian fields `[data ptr][len][len+1]` at offsets 0/8/16.  `none`
models a raised exception from `write_bytes` or `struct.pack`. -/
def write_string_struct (m : Mem) (a : BumpAllocator) (s : List Nat) :
    Option (Nat × Mem × BumpAllocator) :=
  let data_len := s.length
  let r1 := aligned_alloc a 1 (data_len + 1)
  let data_ptr := r1.1
  match write_bytes m data_ptr (s ++ [0]) with
  | (_, false) => none
  | (m1, true) =>
    let r2 := aligned_alloc r1.2 8 24
    let struct_ptr := r2.1
    match write_i64_le m1 struct_ptr data_ptr with
    | none => none
    | some m2 =>
      match write_i64_le m2 (struct_ptr + 8) data_len with
      | none => none
      | some m3 =>
        match write_i64_le m3 (struct_ptr + 16) (data_len + 1) with
        | none => none
        | some m4 => some (struct_ptr, m4, r2.2)

/-- `WasmInstance.alloc_string_struct`: allocate a 24-byte struct (align 8)
and zero it. -/
def alloc_string_struct (m : Mem) (a : BumpAllocator) :
    Option (Nat × Mem × BumpAllocator) :=
  let r := aligned_alloc a 8 24
  match write_bytes m r.1 (List.replicate 24 0) with
  | (_, false) => none
  | (m1, true) => some (r.1, m1, r.2)

/-- `WasmInstance.read_string_struct`: read the capacity field at offset 16;
top bit set selects the inline (SSO) form, clear selects the heap form;
length ≤ 0 yields the empty string; otherwise read the data bytes and decode
them strictly as UTF-8 (`none` models a raised exception: a short 8-byte
field read or malformed UTF-8). -/
def read_string_struct (m : Mem) (struct_ptr : Nat) : Option (List Nat) :=
  match read_u64_le m (struct_ptr + 16) with
  | none => none
  | some capacity =>
    let form : Option (Int × Int) :=
      if capacity &&& SSO_FLAG ≠ 0 then
        some ((struct_ptr : Int), (((capacity &&& SSO_LEN_MASK) >>> 56 : Nat) : Int))
      else
        match read_i64_le m struct_ptr, read_i64_le m (struct_ptr + 8) with
        | some p, some l => some (p, l)
        | _, _ => none
    match form with
    | none => none
    | some (data_ptr, length) =>
      if length ≤ 0 then some []
      else
        let raw := readBytes m data_ptr length
        if validUtf8 raw then some raw else none

/-- Reference decode, following the specification's words: consult bit 63 of
the capacity word first; when set, the inline length is bits 56–60 and data
starts at the struct's own base; when clear, the pointer is the 8 bytes at
offset 0 and the length the 8 bytes at offset 8; length ≤ 0 decodes to empty,
and malformed UTF-8 fails loudly. -/
def readStringSpec (m : Mem) (struct_ptr : Nat) : Option (List Nat) :=
  match read_u64_le m (struct_ptr + 16) with
  | none => none
  | some capacity =>
    if capacity.testBit 63 then
      let length : Int := (capacity / 2 ^ 56 % 2 ^ 5 : Nat)
      if length ≤ 0 then some []
      else
        let raw := readBytes m (struct_ptr : Int) length
        if validUtf8 raw then some raw else none
    else
      match read_i64_le m struct_ptr, read_i64_le m (struct_ptr + 8) with
      | some data_ptr, some length =>
        if length ≤ 0 then some []
        else
          let raw := readBytes m data_ptr length
          if validUtf8 raw then some raw else none
      | _, _ => none

/-- Reference read, following the claim's words for the accessor: require
`offset + len` within the current memory size, else fail with a bounds error
(modelled as `none`). -/
def readBytesChecked (m : Mem) (p len : Nat) : Option (List Nat) :=
  if p + len ≤ m.size then some (readBytes m p len) else none

/-- The `write` import (`write_fn`): `length == 0` returns 0 untouched;
otherwise the harness reads `length` bytes at `ptr` (Python slice semantics),
decodes with replacement, appends to the captured-stdout log and returns
`length` for `fd == 1`, forwards to stderr and returns `length` for
`fd == 2`, and returns `-1` otherwise.  `instSet` models whether the
instance wrapper has been installed (`_inst_wrapper[0] is not None`); the
stderr stream is outside the model.  The log entries are the decoded texts. -/
def write_fn (instSet : Bool) (m : Mem) (log : List (List Nat))
    (fd ptr length : Int) : Int × List (List Nat) :=
  if length = 0 then (0, log)
  else if !instSet then (-1, log)
  else
    let text := decodeReplace (readBytes m ptr length)
    if fd = 1 then (length, log ++ [text])
    else if fd = 2 then (length, log)
    else (-1, log)

/-- Fold a sequence of `write(fd=1, ptr, length)` calls over the captured
log; guest memory is unchanged by `write`. -/
def runWrites (m : Mem) (log : List (List Nat)) : List (Int × Int) → List (List Nat)
  | [] => log
  | (p, len) :: rest => runWrites m (write_fn true m log 1 p len).2 rest

/-- A host float value: `none` is NaN, `some q` a finite value (the ordered
part of the float line relevant to the comparison-based min/max imports). -/
abbrev FVal : Type := Option ℚ

/-- Python `x > y` on floats: any comparison against NaN is false. -/
def fgt (x y : FVal) : Bool :=
  match x, y with
  | some a, some b => decide (b < a)
  | _, _ => false

/-- Python `x < y` on floats: any comparison against NaN is false. -/
def flt (x y : FVal) : Bool :=
  match x, y with
  | some a, some b => decide (a < b)
  | _, _ => false

/-- `fminf` import: `return y if x > y else x`. -/
def fminf_fn (x y : FVal) : FVal := if fgt x y then y else x

/-- `fmaxf` import: `return x if x > y else y`. -/
def fmaxf_fn (x y : FVal) : FVal := if fgt x y then x else y

/-- `fmin` import: `return y if x > y else x`. -/
def fmin_fn (x y : FVal) : FVal := if fgt x y then y else x

/-- `fmax` import: `return x if x > y else y`. -/
def fmax_fn (x y : FVal) : FVal := if fgt x y then x else y

/-- Reference min, following the specification's words: return the left
operand if `left < right`, else return the right operand. -/
def specMin (x y : FVal) : FVal := if flt x y then x else y

/-- Reference max, the specification's mirrored rule: return the left operand
if `left > right`, else return the right operand. -/
def specMax (x y : FVal) : FVal := if fgt x y then x else y

/-- A guest export: a function (abstracted by its behavior on argument
lists), the memory export, or a global. -/
inductive ExportVal where
  | func (f : List Int → Option Int)
  | memory
  | global (v : Int)

/-- The two assertion failures of `WasmInstance.call`, plus engine traps:
`notFound` is the `"WASM export '...' not found"` assertion, `typeMismatch`
the `"'...' is not a function"` assertion. -/
inductive CallError where
  | notFound
  | typeMismatch
  | trap
deriving DecidableEq

/-- `WasmInstance.call`: look up the export by name; a missing name fails the
first assertion (`notFound`), a non-function export the second
(`typeMismatch`); otherwise the engine runs the function. -/
def call (exports : String → Option ExportVal) (name : String)
    (args : List Int) : Except CallError (Option Int) :=
  match exports name with
  | none => .error .notFound
  | some (.func f) =>
    match f args with
    | some r => .ok (some r)
    | none => .error .trap
  | some _ => .error .typeMismatch

/-- Three-byte memory `[10, 20, 30]`, used to exhibit the truncating
out-of-bounds read. -/
def memB : Mem := ⟨3, fun i => 10 * (i + 1)⟩

/-- Memory holding an inline (SSO) string struct at base 0: bytes `A`–`E` at
offsets 0–4 and capacity word `0x8500000000000000` at offset 16. -/
def memSso : Mem :=
  ⟨24, fun i => if i < 5 then 65 + i else if i = 23 then 0x85 else 0⟩

/-- A 24-byte all-sevens memory, fodder for `alloc_string_struct`. -/
def memO : Mem := ⟨24, fun _ => 7⟩

/-- A 4-byte memory of `A` bytes, fodder for the `write` import. -/
def memW : Mem := ⟨4, fun _ => 65⟩

/-- A 200-byte zeroed memory, fodder for the marshalling round trip. -/
def memZ : Mem := ⟨200, fun _ => 0⟩

/-- A two-byte memory of `A` bytes, exhibiting the negative-length wrap. -/
def memC : Mem := ⟨2, fun _ => 65⟩

/-- A tiny export table: only the `memory` export is present. -/
def exps0 : String → Option ExportVal :=
  fun n => if n = "memory" then some ExportVal.memory else none

/-! ## Helper lemmas -/

theorem aligned_alloc_le (a : BumpAllocator) (al sz : Nat) :
    a.ptr ≤ (aligned_alloc a al sz).1 := by
  unfold aligned_alloc
  dsimp only
  split <;> omega

theorem aligned_alloc_snd_ptr (a : BumpAllocator) (al sz : Nat) :
    (aligned_alloc a al sz).2.ptr = (aligned_alloc a al sz).1 + sz := rfl

theorem runAllocs_ptr_ge :
    ∀ (calls : List (Nat × Nat)) (a : BumpAllocator),
      ∀ q ∈ runAllocs a calls, a.ptr ≤ q.1
  | [], a => by simp [runAllocs]
  | (al, sz) :: rest, a => by
    intro q hq
    simp only [runAllocs, List.mem_cons] at hq
    rcases hq with h | h
    · rw [h]
      exact aligned_alloc_le a al sz
    · have h1 := runAllocs_ptr_ge rest (aligned_alloc a al sz).2 q h
      have h2 := aligned_alloc_snd_ptr a al sz
      have h3 := aligned_alloc_le a al sz
      omega

theorem write_bytes_size :
    ∀ (d : List Nat) (m : Mem) (p : Nat), ((write_bytes m p d).1).size = m.size
  | [], _, _ => rfl
  | b :: rest, m, p => by
    simp only [write_bytes]
    split
    · exact write_bytes_size rest (setByte m p b) (p + 1)
    · rfl

theorem write_bytes_flag_iff :
    ∀ (d : List Nat) (m : Mem) (p : Nat),
      (write_bytes m p d).2 = true ↔ (d = [] ∨ p + d.length ≤ m.size)
  | [], m, p => by simp [write_bytes]
  | b :: rest, m, p => by
    simp only [write_bytes]
    by_cases h : p < m.size
    · rw [if_pos h, write_bytes_flag_iff rest (setByte m p b) (p + 1)]
      have hs : (setByte m p b).size = m.size := rfl
      rw [hs]
      constructor
      · rintro (rfl | hl)
        · right
          simpa using h
        · right
          simp only [List.length_cons]
          omega
      · rintro (hc | hl)
        · exact absurd hc (by simp)
        · simp only [List.length_cons] at hl
          right
          omega
    · rw [if_neg h]
      simp only [List.length_cons]
      constructor
      · intro hfalse
        exact absurd hfalse (by simp)
      · rintro (hc | hl)
        · exact absurd hc (by simp)
        · omega

theorem sliceIdx_natCast (s n : Nat) : sliceIdx s (n : Int) = min n s := by
  simp [sliceIdx]

theorem runWrites_map :
    ∀ (calls : List (Int × Int)) (m : Mem) (log : List (List Nat)),
      (∀ c ∈ calls, c.2 ≠ 0) →
      runWrites m log calls =
        log ++ calls.map fun c => decodeReplace (readBytes m c.1 c.2)
  | [], m, log, _ => by simp [runWrites]
  | (p, len) :: rest, m, log, h => by
    have hlen : len ≠ 0 := h (p, len) (List.mem_cons_self _ _)
    simp only [runWrites]
    have hw : (write_fn true m log 1 p len).2 =
        log ++ [decodeReplace (readBytes m p len)] := by
      unfold write_fn
      rw [if_neg hlen]
      simp
    rw [hw, runWrites_map rest m _ (fun c hc => h c (List.mem_cons_of_mem _ hc))]
    simp

theorem aligned_alloc_lt_add (a : BumpAllocator) (al sz : Nat) (h : 1 ≤ al) :
    (aligned_alloc a al sz).1 < a.ptr + al := by
  have hlt : a.ptr % al < al := Nat.mod_lt _ (by omega)
  unfold aligned_alloc
  dsimp only
  split <;> omega

theorem setByte_data (m : Mem) (p b i : Nat) :
    (setByte m p b).data i = if i = p then b else m.data i := rfl

theorem write_bytes_data_outside :
    ∀ (d : List Nat) (m : Mem) (p i : Nat), (i < p ∨ p + d.length ≤ i) →
      ((write_bytes m p d).1).data i = m.data i
  | [], _, _, _, _ => rfl
  | b :: rest, m, p, i, h => by
    simp only [write_bytes]
    by_cases hp : p < m.size
    · rw [if_pos hp]
      have hrec := write_bytes_data_outside rest (setByte m p b) (p + 1) i
        (by simp only [List.length_cons] at h; omega)
      rw [hrec, setByte_data, if_neg (by simp only [List.length_cons] at h; omega)]
    · rw [if_neg hp]

theorem write_bytes_data_inside :
    ∀ (d : List Nat) (m : Mem) (p : Nat), p + d.length ≤ m.size →
      ∀ j, j < d.length → ((write_bytes m p d).1).data (p + j) = d.getD j 0
  | [], _, _, _, j, hj => absurd hj (by simp)
  | b :: rest, m, p, hle, j, hj => by
    simp only [write_bytes]
    have hp : p < m.size := by simp only [List.length_cons] at hle; omega
    rw [if_pos hp]
    cases j with
    | zero =>
      have hout := write_bytes_data_outside rest (setByte m p b) (p + 1) p
        (Or.inl (by omega))
      simpa [setByte_data] using hout
    | succ j' =>
      have hsz : (setByte m p b).size = m.size := rfl
      have hrec := write_bytes_data_inside rest (setByte m p b) (p + 1)
        (by rw [hsz]; simp only [List.length_cons] at hle; omega) j'
        (by simp only [List.length_cons] at hj; omega)
      rw [show p + (j' + 1) = (p + 1) + j' by omega, hrec, List.getD_cons_succ]

theorem readBytes_in_bounds (m : Mem) (p n : Nat) (h : p + n ≤ m.size) :
    readBytes m (p : Int) (n : Int) = (List.range n).map fun i => m.data (p + i) := by
  have hcast : ((p : Int) + (n : Int)) = ((p + n : Nat) : Int) := by push_cast; ring
  simp only [readBytes, hcast, sliceIdx_natCast]
  rw [Nat.min_eq_left (by omega), Nat.min_eq_left h, Nat.add_sub_cancel_left]

theorem range_map_getD (l : List Nat) :
    (List.range l.length).map (fun i => l.getD i 0) = l := by
  apply List.ext_getElem (by simp)
  intro i h1 h2
  simp [List.getD_eq_getElem l 0 h2, List.getElem?_eq_getElem h2]

theorem getD_replicate_zero (n j : Nat) :
    (List.replicate n (0 : Nat)).getD j 0 = 0 := by
  rcases lt_or_ge j n with h | h
  · rw [List.getD_eq_getElem _ _ (by simpa using h)]
    simp
  · rw [List.getD_eq_default _ _ (by simpa using h)]

theorem leBytes_length : ∀ (n v : Nat), (leBytes n v).length = n
  | 0, _ => rfl
  | n + 1, v => by
    simp only [leBytes, List.length_cons, leBytes_length n (v / 256)]

theorem leDecode_leBytes : ∀ (n v : Nat), leDecode (leBytes n v) = v % 2 ^ (8 * n)
  | 0, v => by simp [leBytes, leDecode, Nat.mod_one]
  | n + 1, v => by
    have hpow : (2 : Nat) ^ (8 * (n + 1)) = 256 * 2 ^ (8 * n) := by
      rw [show 8 * (n + 1) = 8 + 8 * n by ring, pow_add]
      norm_num
    simp only [leBytes, leDecode, leDecode_leBytes n (v / 256)]
    rw [hpow, Nat.mod_mul]

theorem read_u64_of_bytes (m : Mem) (p v : Nat) (hle : p + 8 ≤ m.size)
    (hb : ∀ j, j < 8 → m.data (p + j) = (leBytes 8 v).getD j 0) :
    read_u64_le m p = some (v % 2 ^ 64) := by
  simp only [read_u64_le]
  rw [show (8 : Int) = ((8 : Nat) : Int) from by norm_num,
    readBytes_in_bounds m p 8 hle]
  have hmap : (List.range 8).map (fun i => m.data (p + i)) = leBytes 8 v := by
    have h1 : (List.range 8).map (fun i => m.data (p + i)) =
        (List.range 8).map (fun i => (leBytes 8 v).getD i 0) :=
      List.map_congr_left (fun i hi => hb i (List.mem_range.mp hi))
    have h2 := range_map_getD (leBytes 8 v)
    rw [leBytes_length] at h2
    rw [h1, h2]
  rw [hmap, leBytes_length, if_pos rfl, leDecode_leBytes]

theorem read_i64_of_bytes (m : Mem) (p v : Nat) (hv : v < 2 ^ 63)
    (hle : p + 8 ≤ m.size)
    (hb : ∀ j, j < 8 → m.data (p + j) = (leBytes 8 v).getD j 0) :
    read_i64_le m p = some (v : Int) := by
  have hm : v % 2 ^ 64 = v := Nat.mod_eq_of_lt (by omega)
  have hts : toSigned64 (v % 2 ^ 64) = (v : Int) := by
    rw [hm]
    unfold toSigned64
    rw [if_pos hv]
  unfold read_i64_le
  rw [read_u64_of_bytes m p v hle hb]
  simpa using hts

theorem write_i64_le_spec (m : Mem) (p v : Nat) (hv : v < 2 ^ 63)
    (hle : p + 8 ≤ m.size) :
    ∃ m', write_i64_le m p v = some m' ∧ m'.size = m.size ∧
      (∀ i, (i < p ∨ p + 8 ≤ i) → m'.data i = m.data i) ∧
      (∀ j, j < 8 → m'.data (p + j) = (leBytes 8 v).getD j 0) := by
  have hlen : (leBytes 8 v).length = 8 := leBytes_length 8 v
  have hflag : (write_bytes m p (leBytes 8 v)).2 = true :=
    (write_bytes_flag_iff _ _ _).mpr (Or.inr (by rw [hlen]; exact hle))
  have hsz := write_bytes_size (leBytes 8 v) m p
  have hout := write_bytes_data_outside (leBytes 8 v) m p
  have hin := write_bytes_data_inside (leBytes 8 v) m p (by rw [hlen]; exact hle)
  rcases hw : write_bytes m p (leBytes 8 v) with ⟨m', flag⟩
  rw [hw] at hflag hsz
  have hflag' : flag = true := by simpa using hflag
  subst hflag'
  refine ⟨m', ?_, by simpa using hsz, ?_, ?_⟩
  · unfold write_i64_le
    rw [if_pos hv, hw]
  · intro i hi
    have := hout i (by rw [hlen]; exact hi)
    rw [hw] at this
    simpa using this
  · intro j hj
    have := hin j (by rw [hlen]; exact hj)
    rw [hw] at this
    simpa using this

theorem and_flag_eq_zero (v : Nat) (h : v < 2 ^ 63) : v &&& SSO_FLAG = 0 := by
  rw [show SSO_FLAG = 2 ^ 63 from by norm_num [SSO_FLAG], Nat.and_two_pow,
    Nat.testBit_lt_two_pow h]
  rfl

theorem and_flag_ne_iff (c : Nat) : (c &&& SSO_FLAG ≠ 0) ↔ c.testBit 63 = true := by
  rw [show SSO_FLAG = 2 ^ 63 from by norm_num [SSO_FLAG], Nat.and_two_pow]
  cases h : c.testBit 63 <;> simp [h]

theorem and_mask_shift (c : Nat) :
    (c &&& SSO_LEN_MASK) >>> 56 = c / 2 ^ 56 % 2 ^ 5 := by
  apply Nat.eq_of_testBit_eq
  intro i
  rw [Nat.testBit_shiftRight, Nat.testBit_and,
    show c / 2 ^ 56 = c >>> 56 from (Nat.shiftRight_eq_div_pow c 56).symm,
    Nat.testBit_mod_two_pow, Nat.testBit_shiftRight]
  by_cases hi : i < 5
  · have hM : SSO_LEN_MASK.testBit (56 + i) = true := by
      interval_cases i <;> decide
    simp [hM, hi]
  · have hM : SSO_LEN_MASK.testBit (56 + i) = false := by
      apply Nat.testBit_lt_two_pow
      calc SSO_LEN_MASK < 2 ^ 61 := by norm_num [SSO_LEN_MASK]
        _ ≤ 2 ^ (56 + i) := Nat.pow_le_pow_right (by norm_num) (by omega)
    simp [hM, hi]

/-! ## Claim theorems -/

/-- C1 — the claim is refuted on the code side for `min`: the host `fmin`
(`return y if x > y else x`) returns the NaN left operand on `fmin(NaN, 5)`
where the specification's rule (`return left if left < right, else right`)
and its truth table require `5`; the mirrored `fmax` does satisfy its half of
the table.  This evaluates the imports at the failing input. -/
theorem fmin_nan_asymmetry_bug :
    fmin_fn none (some 5) = none ∧
    fminf_fn none (some 5) = none ∧
    fmin_fn (some 5) none = some 5 ∧
    specMin none (some 5) = some 5 ∧
    specMin (some 5) none = none ∧
    fmax_fn none (some 5) = some 5 ∧
    fmax_fn (some 5) none = none ∧
    fmaxf_fn none (some 5) = some 5 := by decide

/-- C2 — encode-then-decode is the identity: for any valid UTF-8 byte string
`s` fitting the memory budget (all allocations in bounds and all struct
fields within the signed 64-bit range), `write_string_struct` from a fresh
cursor `c` succeeds and `read_string_struct` of the returned struct pointer
yields exactly `s`. -/
theorem encode_decode_roundtrip (m : Mem) (c : Nat) (s : List Nat)
    (hv : validUtf8 s = true)
    (hsize : c + s.length + 32 ≤ m.size)
    (hfit : c + s.length + 32 < 2 ^ 63) :
    ∃ sp m4 a4, write_string_struct m ⟨c⟩ s = some (sp, m4, a4) ∧
      read_string_struct m4 sp = some s := by
  have halloc1 : aligned_alloc ⟨c⟩ 1 (s.length + 1) = (c, ⟨c + (s.length + 1)⟩) := by
    simp [aligned_alloc, Nat.mod_one]
  have hlen1 : (s ++ [0]).length = s.length + 1 := by simp
  have hflag1 : (write_bytes m c (s ++ [0])).2 = true :=
    (write_bytes_flag_iff _ _ _).mpr (Or.inr (by rw [hlen1]; omega))
  have hsz1 := write_bytes_size (s ++ [0]) m c
  have hout1 := write_bytes_data_outside (s ++ [0]) m c
  have hin1 := write_bytes_data_inside (s ++ [0]) m c (by rw [hlen1]; omega)
  rcases hw1 : write_bytes m c (s ++ [0]) with ⟨m1, flag1⟩
  rw [hw1] at hflag1 hsz1
  have hflag1' : flag1 = true := by simpa using hflag1
  subst hflag1'
  have hm1size : m1.size = m.size := by simpa using hsz1
  have hm1out : ∀ i, (i < c ∨ c + (s.length + 1) ≤ i) → m1.data i = m.data i := by
    intro i hi
    have := hout1 i (by rw [hlen1]; exact hi)
    rw [hw1] at this
    simpa using this
  have hm1in : ∀ j, j < s.length + 1 → m1.data (c + j) = (s ++ [0]).getD j 0 := by
    intro j hj
    have := hin1 j (by rw [hlen1]; exact hj)
    rw [hw1] at this
    simpa using this
  obtain ⟨sp, hsp⟩ : ∃ x, (aligned_alloc ⟨c + (s.length + 1)⟩ 8 24).1 = x := ⟨_, rfl⟩
  have hsp_ge : c + (s.length + 1) ≤ sp := by
    rw [← hsp]
    exact aligned_alloc_le _ 8 24
  have hsp_lt : sp < c + (s.length + 1) + 8 := by
    rw [← hsp]
    exact aligned_alloc_lt_add _ 8 24 (by norm_num)
  have hcv : c < 2 ^ 63 := by omega
  have hnv : s.length < 2 ^ 63 := by omega
  have hn1v : s.length + 1 < 2 ^ 63 := by omega
  obtain ⟨m2, hw2, hsz2, hout2, hin2⟩ :=
    write_i64_le_spec m1 sp c hcv (by rw [hm1size]; omega)
  obtain ⟨m3, hw3, hsz3, hout3, hin3⟩ :=
    write_i64_le_spec m2 (sp + 8) s.length hnv (by rw [hsz2, hm1size]; omega)
  obtain ⟨m4, hw4, hsz4, hout4, hin4⟩ :=
    write_i64_le_spec m3 (sp + 16) (s.length + 1) hn1v
      (by rw [hsz3, hsz2, hm1size]; omega)
  have hm4size : m4.size = m.size := by rw [hsz4, hsz3, hsz2, hm1size]
  have hws : write_string_struct m ⟨c⟩ s =
      some (sp, m4, (aligned_alloc ⟨c + (s.length + 1)⟩ 8 24).2) := by
    simp only [write_string_struct]
    rw [halloc1]
    dsimp only
    rw [hw1]
    dsimp only
    rw [hsp, hw2]
    dsimp only
    rw [hw3]
    dsimp only
    rw [hw4]
  have hcap : read_u64_le m4 (sp + 16) = some (s.length + 1) := by
    have := read_u64_of_bytes m4 (sp + 16) (s.length + 1) (by rw [hm4size]; omega) hin4
    rwa [Nat.mod_eq_of_lt (by omega)] at this
  have hptr_bytes : ∀ j, j < 8 → m4.data (sp + j) = (leBytes 8 c).getD j 0 := by
    intro j hj
    rw [hout4 (sp + j) (Or.inl (by omega)), hout3 (sp + j) (Or.inl (by omega))]
    exact hin2 j hj
  have hptr : read_i64_le m4 sp = some (c : Int) :=
    read_i64_of_bytes m4 sp c hcv (by rw [hm4size]; omega) hptr_bytes
  have hlen_bytes : ∀ j, j < 8 →
      m4.data (sp + 8 + j) = (leBytes 8 s.length).getD j 0 := by
    intro j hj
    rw [hout4 (sp + 8 + j) (Or.inl (by omega))]
    exact hin3 j hj
  have hlen : read_i64_le m4 (sp + 8) = some (s.length : Int) :=
    read_i64_of_bytes m4 (sp + 8) s.length hnv (by rw [hm4size]; omega) hlen_bytes
  have hdata : ∀ i, i < s.length → m4.data (c + i) = s.getD i 0 := by
    intro i hi
    rw [hout4 (c + i) (Or.inl (by omega)), hout3 (c + i) (Or.inl (by omega)),
      hout2 (c + i) (Or.inl (by omega)), hm1in i (by omega)]
    rw [List.getD_eq_getElem _ _ (by simp; omega), List.getD_eq_getElem _ _ hi,
      List.getElem_append_left hi]
  have hread : read_string_struct m4 sp = some s := by
    have hflag0 : (s.length + 1) &&& SSO_FLAG = 0 := and_flag_eq_zero _ hn1v
    simp only [read_string_struct]
    rw [hcap]
    dsimp only
    rw [if_neg (by simp [hflag0]), hptr, hlen]
    dsimp only
    by_cases hzero : s.length = 0
    · rw [if_pos (by simp [hzero])]
      rw [List.length_eq_zero.mp hzero]
    · rw [if_neg (by omega)]
      rw [readBytes_in_bounds m4 c s.length (by rw [hm4size]; omega)]
      have hmapeq : (List.range s.length).map (fun i => m4.data (c + i)) = s := by
        have h1 : (List.range s.length).map (fun i => m4.data (c + i)) =
            (List.range s.length).map (fun i => s.getD i 0) :=
          List.map_congr_left (fun i hi => hdata i (List.mem_range.mp hi))
        rw [h1, range_map_getD]
      rw [hmapeq, if_pos hv]
  exact ⟨sp, m4, _, hws, hread⟩

/-- C2 witness: the 100-byte string of `a` repeated, written into the 200-byte
zeroed memory from cursor 0, reads back unchanged. -/
theorem encode_decode_roundtrip_witness :
    ∃ sp m4 a4,
      write_string_struct memZ ⟨0⟩ (List.replicate 100 97) = some (sp, m4, a4) ∧
      read_string_struct m4 sp = some (List.replicate 100 97) :=
  encode_decode_roundtrip memZ 0 (List.replicate 100 97)
    (by decide) (by decide) (by decide)

/-- C3 — the `write` import's full case analysis: `length == 0` returns 0
leaving memory and log untouched; a nonzero length with `fd == 1` appends the
replacement-decoded bytes read at `ptr` and returns `length`; `fd == 2`
returns `length` without touching the log; any other `fd` returns `-1`; and
`N` sequential `fd == 1` calls append exactly the `N` decoded texts in call
order. -/
theorem write_import_case_analysis (b : Bool) (m : Mem) (log : List (List Nat))
    (fd ptr length : Int) (calls : List (Int × Int))
    (hlen : length ≠ 0) (hcalls : ∀ c ∈ calls, c.2 ≠ 0) :
    write_fn b m log fd ptr 0 = (0, log) ∧
    write_fn true m log 1 ptr length =
      (length, log ++ [decodeReplace (readBytes m ptr length)]) ∧
    write_fn true m log 2 ptr length = (length, log) ∧
    (fd ≠ 1 → fd ≠ 2 → write_fn true m log fd ptr length = (-1, log)) ∧
    runWrites m log calls =
      log ++ calls.map fun c => decodeReplace (readBytes m c.1 c.2) := by
  refine ⟨by simp [write_fn], ?_, ?_, ?_, runWrites_map calls m log hcalls⟩
  · unfold write_fn
    rw [if_neg hlen]
    simp
  · unfold write_fn
    rw [if_neg hlen]
    norm_num
  · intro h1 h2
    unfold write_fn
    rw [if_neg hlen]
    simp [h1, h2]

/-- C3 witness: the case analysis instantiated on a concrete 4-byte memory,
log, file descriptors and a two-call sequence. -/
theorem write_import_case_analysis_witness :
    write_fn false memW [] 5 0 0 = (0, []) ∧
    write_fn true memW [] 1 0 2 =
      (2, [] ++ [decodeReplace (readBytes memW 0 2)]) ∧
    write_fn true memW [] 2 0 2 = (2, []) ∧
    ((5 : Int) ≠ 1 → (5 : Int) ≠ 2 → write_fn true memW [] 5 0 2 = (-1, [])) ∧
    runWrites memW [] [(0, 1), (1, 2)] =
      [] ++ [(0, 1), (1, 2)].map fun c => decodeReplace (readBytes memW c.1 c.2) :=
  write_import_case_analysis false memW [] 5 0 2 [(0, 1), (1, 2)]
    (by decide) (by decide)

/-- C4 — from any fresh cursor, a sequence of `aligned_alloc` calls with
power-of-two alignments returns non-decreasing pointers whose nonzero-size
ranges `[p, p+size)` are pairwise disjoint. -/
theorem aligned_alloc_monotone_disjoint (a : BumpAllocator)
    (calls : List (Nat × Nat)) (hpow : ∀ c ∈ calls, ∃ k, c.1 = 2 ^ k) :
    List.Pairwise
      (fun x y => x.1 ≤ y.1 ∧
        (0 < x.2 → 0 < y.2 →
          ∀ i, ¬(x.1 ≤ i ∧ i < x.1 + x.2 ∧ y.1 ≤ i ∧ i < y.1 + y.2)))
      (runAllocs a calls) := by
  induction calls generalizing a with
  | nil => simp [runAllocs]
  | cons c rest ih =>
    obtain ⟨al, sz⟩ := c
    simp only [runAllocs]
    constructor
    · intro y hy
      have h1 := runAllocs_ptr_ge rest (aligned_alloc a al sz).2 y hy
      have h2 := aligned_alloc_snd_ptr a al sz
      refine ⟨by omega, fun _ _ i => by omega⟩
    · exact ih _ (fun c hc => hpow c (List.mem_cons_of_mem _ hc))

/-- C4 witness: four concrete calls with power-of-two alignments from
cursor 3. -/
theorem aligned_alloc_monotone_disjoint_witness :
    List.Pairwise
      (fun x y => x.1 ≤ y.1 ∧
        (0 < x.2 → 0 < y.2 →
          ∀ i, ¬(x.1 ≤ i ∧ i < x.1 + x.2 ∧ y.1 ≤ i ∧ i < y.1 + y.2)))
      (runAllocs ⟨3⟩ [(8, 24), (1, 5), (2, 0), (4, 7)]) :=
  aligned_alloc_monotone_disjoint ⟨3⟩ [(8, 24), (1, 5), (2, 0), (4, 7)]
    (by
      intro c hc
      fin_cases hc
      · exact ⟨3, rfl⟩
      · exact ⟨0, rfl⟩
      · exact ⟨1, rfl⟩
      · exact ⟨2, rfl⟩)

/-- C5 counterexample — an out-of-bounds `read_bytes` does not fail with a
bounds error: on the 3-byte memory `[10, 20, 30]`, `read_bytes 2 5` silently
returns the truncated single byte `[30]`, where the claim's checked read
(`readBytesChecked`) reports a bounds error. -/
theorem read_out_of_bounds_truncates :
    readBytes memB 2 5 = [30] ∧
    readBytesChecked memB 2 5 = none ∧
    memB.size < 2 + 5 := by decide

/-- C5 amended — `read_bytes` never fails: it returns the slice clipped to
the current memory size (so an out-of-bounds read yields truncated, possibly
empty, data); `write_bytes` raises a bounds error (flag `false`) exactly when
the data is nonempty and extends past the current memory size. -/
theorem read_write_bounds_amended (m : Mem) (p len : Nat) (d : List Nat) :
    (readBytes m p len).length = min (p + len) m.size - min p m.size ∧
    ((write_bytes m p d).2 = true ↔ (d = [] ∨ p + d.length ≤ m.size)) := by
  constructor
  · have hcast : ((p : Int) + (len : Int)) = ((p + len : Nat) : Int) := by push_cast; ring
    simp only [readBytes, hcast, sliceIdx_natCast, List.length_map, List.length_range]
  · exact write_bytes_flag_iff d m p

/-- C6 — `read_string_struct` coincides with the specification's reference
decode everywhere: the capacity field at offset 16 is consulted for its top
bit first; when set, the length is bits 56–60 and data starts at the struct
base; when clear, the pointer and length are the 8-byte fields at offsets 0
and 8; length ≤ 0 yields empty.  In particular a struct whose capacity field
is `0x8000000000000000 ||| (5 <<< 56)` decodes as the 5 bytes at the struct's
own base. -/
theorem read_string_struct_spec_equiv :
    (∀ m p, read_string_struct m p = readStringSpec m p) ∧
    (∀ m p, read_u64_le m (p + 16) = some (SSO_FLAG ||| 5 <<< 56) →
      validUtf8 (readBytes m p 5) = true →
      read_string_struct m p = some (readBytes m p 5)) := by
  constructor
  · intro m p
    simp only [read_string_struct, readStringSpec]
    cases hcap : read_u64_le m (p + 16) with
    | none => rfl
    | some capacity =>
      dsimp only
      by_cases hb : capacity.testBit 63 = true
      · rw [if_pos ((and_flag_ne_iff capacity).mpr hb), if_pos hb, and_mask_shift]
      · rw [if_neg (fun hne => hb ((and_flag_ne_iff capacity).mp hne)), if_neg hb]
        cases hx : read_i64_le m p <;> cases hy : read_i64_le m (p + 8) <;> rfl
  · intro m p hcap hvalid
    have hflag : (SSO_FLAG ||| 5 <<< 56) &&& SSO_FLAG ≠ 0 := by decide
    have hlen5 : ((SSO_FLAG ||| 5 <<< 56) &&& SSO_LEN_MASK) >>> 56 = 5 := by decide
    simp only [read_string_struct]
    rw [hcap]
    dsimp only
    rw [if_pos hflag, hlen5]
    dsimp only
    norm_num [hvalid]

/-- C6 witness: the concrete memory `memSso` carries that capacity word at
offset 16, and its struct at base 0 decodes to the 5 bytes `A`–`E` stored at
the base. -/
theorem read_string_struct_spec_equiv_witness :
    read_string_struct memSso 0 = some (readBytes memSso 0 5) :=
  read_string_struct_spec_equiv.2 memSso 0 (by decide) (by decide)

/-- C7 — `call` fails with the distinct `notFound` error when no export of
the given name exists, and with the distinct `typeMismatch` error when the
name resolves to a non-function export. -/
theorem call_error_variants (exports : String → Option ExportVal)
    (name : String) (args : List Int) :
    (exports name = none → call exports name args = .error .notFound) ∧
    (∀ v, exports name = some v → (∀ f, v ≠ ExportVal.func f) →
      call exports name args = .error .typeMismatch) ∧
    CallError.notFound ≠ CallError.typeMismatch := by
  refine ⟨fun h => by simp [call, h], fun v hv hnf => ?_, by decide⟩
  cases v with
  | func f => exact absurd rfl (hnf f)
  | memory => simp [call, hv]
  | global g => simp [call, hv]

/-- C7 witness: on a table exporting only `memory`, looking up `frob` fails
as `notFound` and looking up `memory` fails as `typeMismatch`. -/
theorem call_error_variants_witness :
    call exps0 "frob" [] = .error .notFound ∧
    call exps0 "memory" [] = .error .typeMismatch :=
  ⟨(call_error_variants exps0 "frob" []).1 rfl,
   (call_error_variants exps0 "memory" []).2.1 ExportVal.memory rfl
     (fun _ h => ExportVal.noConfusion h)⟩

/-- C8 counterexample — from the unaligned base 1, the first
`aligned_alloc(8, 24)` returns the rounded-up pointer 8, not the base 1 the
claim requires for every base value. -/
theorem aligned_alloc_unaligned_base_counterexample :
    (aligned_alloc ⟨1⟩ 8 24).1 = 8 ∧ (aligned_alloc ⟨1⟩ 8 24).1 ≠ 1 := by decide

/-- C8 amended — for every 8-byte-aligned base `B`, two successive
`aligned_alloc(8, 24)` calls from cursor `B` return `B` and then `B + 24`. -/
theorem aligned_alloc_twice_from_aligned_base (B : Nat) (h : B % 8 = 0) :
    (aligned_alloc ⟨B⟩ 8 24).1 = B ∧
    (aligned_alloc (aligned_alloc ⟨B⟩ 8 24).2 8 24).1 = B + 24 := by
  have h1 : aligned_alloc ⟨B⟩ 8 24 = (B, ⟨B + 24⟩) := by
    simp [aligned_alloc, h]
  have h24 : (B + 24) % 8 = 0 := by omega
  have h2 : aligned_alloc ⟨B + 24⟩ 8 24 = (B + 24, ⟨B + 48⟩) := by
    simp [aligned_alloc, h24]
  rw [h1]
  exact ⟨rfl, by rw [h2]⟩

/-- C8 witness: the two calls from the concrete aligned base 16 return 16
and 40. -/
theorem aligned_alloc_twice_from_aligned_base_witness :
    (aligned_alloc ⟨16⟩ 8 24).1 = 16 ∧
    (aligned_alloc (aligned_alloc ⟨16⟩ 8 24).2 8 24).1 = 16 + 24 :=
  aligned_alloc_twice_from_aligned_base 16 (by decide)

/-- C10 counterexample — a negative length does not always read zero bytes:
with `ptr = 0` and `length = -1` on a 2-byte memory, the Python slice stop
wraps from the end, one byte is read, and the appended text is nonempty. -/
theorem write_negative_length_counterexample :
    write_fn true memC [] 1 0 (-1) = (-1, [[65]]) ∧
    readBytes memC 0 (-1) = [65] ∧
    decodeReplace (readBytes memC 0 (-1)) ≠ [] := by decide

/-- C10 amended — for a negative length whose slice stop `ptr + length`
stays nonnegative (with `ptr ≥ 0`), the `write` import reads zero bytes,
appends the empty string for `fd == 1`, and returns the negative length
itself. -/
theorem write_negative_length_amended (m : Mem) (log : List (List Nat))
    (ptr length : Int) (hneg : length < 0) (hptr : 0 ≤ ptr)
    (hstop : 0 ≤ ptr + length) :
    readBytes m ptr length = [] ∧
    write_fn true m log 1 ptr length = (length, log ++ [[]]) := by
  have hread : readBytes m ptr length = [] := by
    unfold readBytes
    have h1 : sliceIdx m.size (ptr + length) ≤ sliceIdx m.size ptr := by
      unfold sliceIdx
      rw [if_neg (not_lt.mpr hstop), if_neg (not_lt.mpr hptr)]
      have h2 : (ptr + length).toNat ≤ ptr.toNat := Int.toNat_le_toNat (by omega)
      exact min_le_min h2 le_rfl
    simp [Nat.sub_eq_zero_of_le h1]
  refine ⟨hread, ?_⟩
  unfold write_fn
  rw [if_neg (by omega : ¬length = 0)]
  simp [hread, decodeReplace, decodeReplaceGo]

/-- C9 — whenever `alloc_string_struct` returns a pointer (its 24-byte zero
write succeeded), decoding that struct with `read_string_struct` yields the
empty string: the zero capacity has a clear flag and the zero heap length
takes the `length ≤ 0` path without reading data memory. -/
theorem alloc_empty_decodes_empty (m : Mem) (a : BumpAllocator)
    (h : (alloc_string_struct m a).isSome = true) :
    ∃ sp m1 a1, alloc_string_struct m a = some (sp, m1, a1) ∧
      read_string_struct m1 sp = some [] := by
  obtain ⟨sp, hsp⟩ : ∃ x, (aligned_alloc a 8 24).1 = x := ⟨_, rfl⟩
  rcases hw : write_bytes m sp (List.replicate 24 0) with ⟨m1, flag⟩
  simp only [alloc_string_struct] at h
  rw [hsp, hw] at h
  cases flag with
  | false => simp at h
  | true =>
    have hle : sp + 24 ≤ m.size := by
      have h2 := (write_bytes_flag_iff (List.replicate 24 0) m sp).mp (by rw [hw])
      rcases h2 with hnil | hle
      · exact absurd hnil (by simp)
      · simpa using hle
    have hm1sz : m1.size = m.size := by
      have := write_bytes_size (List.replicate 24 0) m sp
      rw [hw] at this
      simpa using this
    have hin : ∀ j, j < 24 → m1.data (sp + j) = 0 := by
      intro j hj
      have := write_bytes_data_inside (List.replicate 24 0) m sp
        (by simpa using hle) j (by simpa using hj)
      rw [hw, getD_replicate_zero] at this
      simpa using this
    have hz8 : ∀ j, (leBytes 8 0).getD j 0 = 0 := by
      intro j
      have h0 : leBytes 8 0 = List.replicate 8 0 := by decide
      rw [h0, getD_replicate_zero]
    have hcap : read_u64_le m1 (sp + 16) = some 0 := by
      have hb : ∀ j, j < 8 → m1.data (sp + 16 + j) = (leBytes 8 0).getD j 0 := by
        intro j hj
        rw [show sp + 16 + j = sp + (16 + j) by omega, hin (16 + j) (by omega), hz8]
      have := read_u64_of_bytes m1 (sp + 16) 0 (by rw [hm1sz]; omega) hb
      simpa using this
    have hzero : read_i64_le m1 sp = some 0 := by
      have hb : ∀ j, j < 8 → m1.data (sp + j) = (leBytes 8 0).getD j 0 := by
        intro j hj
        rw [hin j (by omega), hz8]
      have := read_i64_of_bytes m1 sp 0 (by norm_num) (by rw [hm1sz]; omega) hb
      simpa using this
    have hlen0 : read_i64_le m1 (sp + 8) = some 0 := by
      have hb : ∀ j, j < 8 → m1.data (sp + 8 + j) = (leBytes 8 0).getD j 0 := by
        intro j hj
        rw [show sp + 8 + j = sp + (8 + j) by omega, hin (8 + j) (by omega), hz8]
      have := read_i64_of_bytes m1 (sp + 8) 0 (by norm_num) (by rw [hm1sz]; omega) hb
      simpa using this
    refine ⟨sp, m1, (aligned_alloc a 8 24).2, ?_, ?_⟩
    · simp only [alloc_string_struct]
      rw [hsp, hw]
    · simp only [read_string_struct]
      rw [hcap, hzero, hlen0]
      simp [Nat.zero_and]

/-- C9 witness: on the concrete 24-byte all-sevens memory from cursor 0, the
allocation returns a pointer and the decode of the zeroed struct is empty. -/
theorem alloc_empty_decodes_empty_witness :
    ∃ sp m1 a1, alloc_string_struct memO ⟨0⟩ = some (sp, m1, a1) ∧
      read_string_struct m1 sp = some [] :=
  alloc_empty_decodes_empty memO ⟨0⟩ (by decide)

/-- C10 witness: `write(1, 3, -2)` on the 2-byte memory reads nothing,
appends the empty text, and returns `-2`. -/
theorem write_negative_length_amended_witness :
    readBytes memC 3 (-2) = [] ∧
    write_fn true memC [] 1 3 (-2) = (-2, [[]]) :=
  write_negative_length_amended memC [] 3 (-2) (by decide) (by decide) (by decide)

end WasmHarness
